import Mathlib

/-!
Verification of the two core engines of the go-time repository
(`src/internal/replacer.go`, `src/internal/era_cache.go`) together with
the matcher-pool constructor (`src/internal/regex_pool.go`).

Go strings are modelled as lists of characters (`Str`); the scan loop of
`StringReplacer.Replace` advances unit by unit exactly as the byte scan
of the source does.  The `sync.Map` backing the cache is modelled as an
association list kept canonical (newest binding first, one binding per
key), and the doubly linked recency list as a plain list whose head is
the most-recently-added node.  The embedding is sequential: each cache
operation is one atomic state transition, matching the order of the
statements in the source (eviction check, then store, then addToFront).
-/

namespace GoTime

/-- Go strings, modelled as lists of characters. -/
abbrev Str := List Char

/-- Go's bytewise lexicographic string comparison `a < b`. -/
def strLt : Str → Str → Bool
  | [], [] => false
  | [], _ :: _ => true
  | _ :: _, [] => false
  | a :: as, b :: bs => if a < b then true else if b < a then false else strLt as bs

/-- Predicate `startsWith s p`: holds when `p` is a leading span of `s`
(the comparison `s[i:i+rep.len] == rep.from` of the source). -/
def startsWith : Str → Str → Bool
  | _, [] => true
  | [], _ :: _ => false
  | c :: s, d :: p => c == d && startsWith s p

/-- Predicate `containsSeq p s`: holds when `p` occurs contiguously inside `s`. -/
def containsSeq (p : Str) : Str → Bool
  | [] => startsWith [] p
  | c :: rest => startsWith (c :: rest) p || containsSeq p rest

/-- One replacement pair of `replacer.go`: the pattern, its substitute,
and the cached pattern length. -/
structure Replacement where
  fromStr : Str
  toStr : Str
  len : Nat
deriving DecidableEq

/-- The comparator handed to `sort.Slice` in `NewStringReplacer`:
`reps[i].len > reps[j].len`, ties broken by `reps[i].from > reps[j].from`. -/
def repLess (a b : Replacement) : Bool :=
  if a.len ≠ b.len then decide (b.len < a.len) else strLt b.fromStr a.fromStr

/-- Relation of the sort: `a` may be placed before `b` in the sorted table: `b` does not come
strictly before `a` under the `sort.Slice` comparator. -/
def repOrd (a b : Replacement) : Prop := repLess b a = false

instance : DecidableRel repOrd := fun a b =>
  inferInstanceAs (Decidable (repLess b a = false))

/-- The replacer of `replacer.go`: an immutable sorted pattern table. -/
structure StringReplacer where
  replacements : List Replacement

/-- One entry of the table built by `NewStringReplacer`: the pattern, its
substitute, and the cached `len(from)`. -/
def mkRep (p : Str × Str) : Replacement :=
  { fromStr := p.1, toStr := p.2, len := p.1.length }

/-- Constructor `NewStringReplacer`: materialize the mapping as a table and sort it with
the comparator above.  `sort.Slice` sorts by the strict comparator; insertion
sort with the complementary relation produces a table sorted the same way
(for the distinct keys of a Go map the sorted order is unique). -/
def newStringReplacer (l : List (Str × Str)) : StringReplacer :=
  { replacements := List.insertionSort repOrd (l.map mkRep) }

/-- The per-pattern test of the scan loop:
`len(s)-i >= rep.len && s[i:i+rep.len] == rep.from`, where `s` here is the
remaining suffix of the input. -/
def matchesAt (r : Replacement) (s : Str) : Bool :=
  decide (r.len ≤ s.length) && decide (s.take r.len = r.fromStr)

/-- The inner loop of `Replace`: first pattern of the table matching at the
current position (the loop breaks at the first hit). -/
def findMatch : List Replacement → Str → Option Replacement
  | [], _ => none
  | r :: rest, s => if matchesAt r s then some r else findMatch rest s

/-- The scan loop of `Replace`, indexed by fuel; `none` models a scan that
has not terminated within the given number of iterations.  On a match the
position advances by `rep.len`, otherwise the current unit is copied and the
position advances by one, exactly as in the source. -/
def replaceFuel (reps : List Replacement) : Nat → Str → Option Str
  | 0, _ => none
  | _ + 1, [] => some []
  | fuel + 1, c :: rest =>
    match findMatch reps (c :: rest) with
    | some r => (replaceFuel reps fuel ((c :: rest).drop r.len)).map (fun out => r.toStr ++ out)
    | none => (replaceFuel reps fuel rest).map (fun out => c :: out)

/-- Method `StringReplacer.Replace`.  The fast path returns the input unchanged when
the table is empty.  Otherwise the scan loop runs; one unit of fuel per input
position plus one final iteration is exactly the number of iterations the Go
loop performs whenever every pattern is nonempty, so a `none` result denotes a
scan that never reaches the end of the input (a nonterminating Go loop). -/
def StringReplacer.Replace (sr : StringReplacer) (s : Str) : Option Str :=
  if sr.replacements.length = 0 then some s
  else replaceFuel sr.replacements (s.length + 1) s

/-- Structure `RegexPool` of `regex_pool.go`: holds the one compiled pattern. -/
structure RegexPool (R : Type) where
  pattern : R

/-- Constructor `NewRegexPool`.  The stdlib compiler `regexp.Compile` is external to the
repository and is passed in abstractly; an `Except.error` result models the
construction-time failure (the Go code halts construction on it) carrying the
offending pattern. -/
def newRegexPool {R : Type} (compile : Str → Option R) (p : Str) :
    Except Str (RegexPool R) :=
  match compile p with
  | none => Except.error p
  | some r => Except.ok { pattern := r }

/-- The key of `era_cache.go`: CE year (int64) plus the opaque era identity
(the `unsafe.Pointer`, modelled as a number; `0` models the nil pointer). -/
structure CacheKey where
  ceYear : Int
  era : Nat
deriving DecidableEq

/-- The backing `sync.Map`, kept canonical: newest binding first, at most one
binding per key. -/
abbrev CacheMap := List (CacheKey × Int)

/-- Load of the `sync.Map`. -/
def mapLoad (k : CacheKey) : CacheMap → Option Int
  | [] => none
  | e :: rest => if e.1 = k then some e.2 else mapLoad k rest

/-- Delete of the `sync.Map`. -/
def mapDelete (k : CacheKey) : CacheMap → CacheMap
  | [] => []
  | e :: rest => if e.1 = k then mapDelete k rest else e :: mapDelete k rest

/-- Store of the `sync.Map` (overwrite semantics, canonical representation). -/
def mapStore (k : CacheKey) (v : Int) (m : CacheMap) : CacheMap :=
  (k, v) :: mapDelete k m

/-- The cache state of `era_cache.go`.  The recency list holds keys with the
most-recently-added node first (the Go list head); its last element is the
Go list tail. -/
structure EraCache where
  cache : CacheMap
  maxSize : Nat
  hits : Nat
  misses : Nat
  evictions : Nat
  lruList : List CacheKey
deriving DecidableEq

/-- Constant `DefaultMaxCacheSize`. -/
def DefaultMaxCacheSize : Nat := 1024

/-- Constructor `NewEraCache`: a nonpositive requested size is normalized to the default. -/
def newEraCache (maxSize : Int) : EraCache :=
  { cache := []
    maxSize := if maxSize ≤ 0 then DefaultMaxCacheSize else maxSize.toNat
    hits := 0
    misses := 0
    evictions := 0
    lruList := [] }

/-- Method `lruList.addToFront`. -/
def addToFront (k : CacheKey) (l : List CacheKey) : List CacheKey := k :: l

/-- Method `lruList.removeLeastRecent`: pops the tail; on an empty list it returns
the zero-valued `cacheKey{}` and leaves the list empty. -/
def removeLeastRecent (l : List CacheKey) : CacheKey × List CacheKey :=
  match l.getLast? with
  | none => ({ ceYear := 0, era := 0 }, [])
  | some k => (k, l.dropLast)

/-- Method `EraCache.Get`: returns the value and found flag and bumps the hit or
miss counter; it does not touch the recency list. -/
def EraCache.getOp (c : EraCache) (k : CacheKey) : (Int × Bool) × EraCache :=
  match mapLoad k c.cache with
  | some v => ((v, true), { c with hits := c.hits + 1 })
  | none => ((0, false), { c with misses := c.misses + 1 })

/-- The eviction block at the top of `EraCache.Set`: when the tracked size has
reached capacity, pop the least-recent key; only when its `ceYear` is nonzero
is it deleted from the backing map and the eviction counter bumped. -/
def EraCache.evictStep (c : EraCache) : EraCache :=
  if c.maxSize ≤ c.lruList.length then
    let p := removeLeastRecent c.lruList
    if p.1.ceYear ≠ 0 then
      { c with
          lruList := p.2
          cache := mapDelete p.1 c.cache
          evictions := c.evictions + 1 }
    else { c with lruList := p.2 }
  else c

/-- Method `EraCache.Set`: eviction check, then store, then add-to-front, in the
order of the source. -/
def EraCache.setOp (c : EraCache) (k : CacheKey) (v : Int) : EraCache :=
  let c1 := c.evictStep
  { c1 with
      cache := mapStore k v c1.cache
      lruList := addToFront k c1.lruList }

/-- Method `EraCache.Clear`: fresh map, fresh recency list, zeroed counters. -/
def EraCache.clearOp (c : EraCache) : EraCache :=
  { c with cache := [], lruList := [], hits := 0, misses := 0, evictions := 0 }

/-- Method `EraCache.Stats`: snapshot of the three counters. -/
def EraCache.statsOp (c : EraCache) : Nat × Nat × Nat :=
  (c.hits, c.misses, c.evictions)

/-- One cache operation of a client trace. -/
inductive CacheOp where
  | set (k : CacheKey) (v : Int)
  | get (k : CacheKey)
  | clear
deriving DecidableEq

/-- State transition of one operation (the returned value of a get is
recovered with `EraCache.getOp`). -/
def applyOp (c : EraCache) : CacheOp → EraCache
  | .set k v => c.setOp k v
  | .get k => (c.getOp k).2
  | .clear => c.clearOp

/-- Run a trace of operations left to right. -/
def runOps (c : EraCache) : List CacheOp → EraCache
  | [] => c
  | op :: ops => runOps (applyOp c op) ops

/-- Run a list of `Set` calls. -/
def setAll (c : EraCache) : List (CacheKey × Int) → EraCache
  | [] => c
  | kv :: rest => setAll (c.setOp kv.1 kv.2) rest

/-- Predicate `opEvicts c op k`: executing `op` in state `c` deletes key `k` from the
backing map through the eviction block. -/
def opEvicts (c : EraCache) (op : CacheOp) (k : CacheKey) : Bool :=
  match op with
  | .set _ _ =>
    decide (c.maxSize ≤ c.lruList.length) &&
      decide ((removeLeastRecent c.lruList).1 = k) && decide (k.ceYear ≠ 0)
  | _ => false

/-- Predicate: `op` is a `Set` of key `k`. -/
def opSetsKey (op : CacheOp) (k : CacheKey) : Bool :=
  match op with
  | .set k' _ => decide (k' = k)
  | _ => false

/-- Predicate: `op` is a `Clear`. -/
def isClear : CacheOp → Bool
  | .clear => true
  | _ => false

/-- The trace contains no `Clear` and, at the state it executes in, no
operation evicts key `k` from the backing map. -/
def noClearNoEvict (c : EraCache) (k : CacheKey) : List CacheOp → Bool
  | [] => true
  | op :: ops =>
    !isClear op && !opEvicts c op k && noClearNoEvict (applyOp c op) k ops

/-- As `noClearNoEvict`, and additionally no operation of the trace is a
`Set` of key `k`. -/
def noTouchKey (c : EraCache) (k : CacheKey) : List CacheOp → Bool
  | [] => true
  | op :: ops =>
    !isClear op && !opEvicts c op k && !opSetsKey op k &&
      noTouchKey (applyOp c op) k ops

/-- Strict version of the table order of `NewStringReplacer`: strictly longer
first, ties strictly greater lexicographically. -/
def repStrict (a b : Replacement) : Prop :=
  b.len < a.len ∨ (a.len = b.len ∧ strLt b.fromStr a.fromStr = true)

/-- Number of `Set` calls in a trace. -/
def countSets : List CacheOp → Nat
  | [] => 0
  | .set _ _ :: ops => countSets ops + 1
  | .get _ :: ops => countSets ops
  | .clear :: ops => countSets ops

/-- The trace contains a `Clear`. -/
def hasClear : List CacheOp → Bool
  | [] => false
  | op :: ops => isClear op || hasClear ops

/-- Number of nodes the recency list loses over a trace: a `Set` executed
with a full, nonempty list pops exactly one node (`removeLeastRecent`), and
nothing else removes nodes. -/
def listRemovals (c : EraCache) : List CacheOp → Nat
  | [] => 0
  | .set k v :: ops =>
    (if c.maxSize ≤ c.lruList.length ∧ c.lruList ≠ [] then 1 else 0) +
      listRemovals (c.setOp k v) ops
  | .get k :: ops => listRemovals ((c.getOp k).2) ops
  | .clear :: ops => listRemovals c.clearOp ops

/-- The ten inserts of the eviction example of the spec: years 2000 to 2009,
one era identity, Buddhist-era values. -/
def yearKvs : List (CacheKey × Int) :=
  [(⟨2000, 1⟩, 2543), (⟨2001, 1⟩, 2544), (⟨2002, 1⟩, 2545), (⟨2003, 1⟩, 2546),
   (⟨2004, 1⟩, 2547), (⟨2005, 1⟩, 2548), (⟨2006, 1⟩, 2549), (⟨2007, 1⟩, 2550),
   (⟨2008, 1⟩, 2551), (⟨2009, 1⟩, 2552)]

/-! ### Order properties of the `sort.Slice` comparator -/

theorem strLt_asymm (a : Str) : ∀ b : Str, strLt a b = true → strLt b a = false := by
  induction a with
  | nil =>
    intro b h
    cases b with
    | nil => simp [strLt] at h
    | cons d ds => simp [strLt]
  | cons c cs ih =>
    intro b h
    cases b with
    | nil => simp [strLt] at h
    | cons d ds =>
      by_cases h1 : c < d
      · simp [strLt, h1, lt_asymm h1]
      · by_cases h2 : d < c
        · simp [strLt, h1, h2] at h
        · simp [strLt, h1, h2] at h ⊢
          exact ih ds h

theorem strLt_trans (a : Str) : ∀ b c : Str,
    strLt a b = true → strLt b c = true → strLt a c = true := by
  induction a with
  | nil =>
    intro b c h1 h2
    cases b with
    | nil => simp [strLt] at h1
    | cons y ys =>
      cases c with
      | nil => simp [strLt] at h2
      | cons z zs => simp [strLt]
  | cons x xs ih =>
    intro b c h1 h2
    cases b with
    | nil => simp [strLt] at h1
    | cons y ys =>
      cases c with
      | nil => simp [strLt] at h2
      | cons z zs =>
        by_cases hxy : x < y
        · by_cases hyz : y < z
          · simp [strLt, lt_trans hxy hyz]
          · by_cases hzy : z < y
            · simp [strLt, hyz, hzy] at h2
            · have hyzeq : y = z := le_antisymm (not_lt.mp hzy) (not_lt.mp hyz)
              subst hyzeq
              simp [strLt, hxy]
        · by_cases hyx : y < x
          · simp [strLt, hxy, hyx] at h1
          · have hxyeq : x = y := le_antisymm (not_lt.mp hyx) (not_lt.mp hxy)
            subst hxyeq
            simp only [strLt] at h1 ⊢
            rw [if_neg (lt_irrefl x), if_neg (lt_irrefl x)] at h1
            by_cases hxz : x < z
            · simp [hxz]
            · by_cases hzx : z < x
              · simp [strLt, hxz, hzx] at h2
              · simp [strLt, hxz, hzx] at h2 ⊢
                exact ih ys zs h1 h2

theorem strLt_connex (a : Str) : ∀ b : Str,
    strLt a b = false → strLt b a = false → a = b := by
  induction a with
  | nil =>
    intro b h1 _
    cases b with
    | nil => rfl
    | cons d ds => simp [strLt] at h1
  | cons c cs ih =>
    intro b h1 h2
    cases b with
    | nil => simp [strLt] at h2
    | cons d ds =>
      by_cases hcd : c < d
      · simp [strLt, hcd] at h1
      · by_cases hdc : d < c
        · simp [strLt, hdc] at h2
        · have hceq : c = d := le_antisymm (not_lt.mp hdc) (not_lt.mp hcd)
          subst hceq
          simp [strLt, lt_irrefl] at h1 h2
          rw [ih ds h1 h2]

theorem repLess_eq_true {a b : Replacement} :
    repLess a b = true ↔
      b.len < a.len ∨ (a.len = b.len ∧ strLt b.fromStr a.fromStr = true) := by
  unfold repLess
  by_cases h : a.len = b.len
  · simp [h]
  · have : ¬ b.len = a.len := fun he => h he.symm
    simp [h, this]

theorem bool_eq_false {x : Bool} (h : ¬ x = true) : x = false := by
  cases x
  · rfl
  · exact absurd rfl h

theorem repLess_eq_false {a b : Replacement} :
    repLess a b = false ↔
      a.len ≤ b.len ∧ (a.len = b.len → strLt b.fromStr a.fromStr = false) := by
  rw [← Bool.not_eq_true, repLess_eq_true]
  push_neg
  constructor
  · rintro ⟨h1, h2⟩
    exact ⟨h1, fun he => bool_eq_false (h2 he)⟩
  · rintro ⟨h1, h2⟩
    exact ⟨h1, fun he => by simp [h2 he]⟩

instance : IsTotal Replacement repOrd where
  total a b := by
    by_cases h : repLess b a = true
    · right
      show repLess a b = false
      rcases repLess_eq_true.mp h with h1 | ⟨h1, h2⟩
      · exact repLess_eq_false.mpr ⟨le_of_lt h1, fun he => absurd he (ne_of_lt h1)⟩
      · exact repLess_eq_false.mpr ⟨le_of_eq h1.symm, fun _ => strLt_asymm _ _ h2⟩
    · left
      exact bool_eq_false h

instance : IsTrans Replacement repOrd where
  trans a b c hab hbc := by
    obtain ⟨h1a, h1b⟩ := repLess_eq_false.mp hab
    obtain ⟨h2a, h2b⟩ := repLess_eq_false.mp hbc
    refine repLess_eq_false.mpr ⟨le_trans h2a h1a, fun he => ?_⟩
    have hba : b.len = a.len := by omega
    have hcb : c.len = b.len := by omega
    have s1 := h1b hba
    have s2 := h2b hcb
    by_cases h3 : strLt a.fromStr c.fromStr = true
    · exfalso
      by_cases h4 : strLt b.fromStr a.fromStr = true
      · exact absurd (strLt_trans _ _ _ h4 h3) (by simp [s2])
      · have hab2 : a.fromStr = b.fromStr := strLt_connex _ _ s1 (bool_eq_false h4)
        rw [hab2] at h3
        exact absurd h3 (by simp [s2])
    · exact bool_eq_false h3

theorem replacements_sorted (l : List (Str × Str)) :
    List.Pairwise repOrd (newStringReplacer l).replacements :=
  List.sorted_insertionSort repOrd _

theorem replacements_perm (l : List (Str × Str)) :
    List.Perm (newStringReplacer l).replacements (l.map mkRep) :=
  List.perm_insertionSort repOrd _

theorem replacements_pairwise_strict (l : List (Str × Str))
    (hnd : (l.map (·.1)).Nodup) :
    List.Pairwise repStrict (newStringReplacer l).replacements := by
  have hperm := (replacements_perm l).map (·.fromStr)
  have hmm : (l.map mkRep).map (·.fromStr) = l.map (·.1) := by
    simp [List.map_map, mkRep]
  rw [hmm] at hperm
  have hnd2 : ((newStringReplacer l).replacements.map (·.fromStr)).Nodup :=
    hperm.nodup_iff.mpr hnd
  have hne : List.Pairwise (fun a b : Replacement => a.fromStr ≠ b.fromStr)
      (newStringReplacer l).replacements := List.pairwise_map.mp hnd2
  refine ((replacements_sorted l).and hne).imp ?_
  rintro a b ⟨hord, hnefr⟩
  have h1 := repLess_eq_false.mp hord
  rcases lt_or_eq_of_le h1.1 with hlt | heq
  · exact Or.inl hlt
  · have s1 := h1.2 heq
    refine Or.inr ⟨heq.symm, ?_⟩
    by_cases h3 : strLt b.fromStr a.fromStr = true
    · exact h3
    · exact absurd (strLt_connex _ _ s1 (Bool.not_eq_true _ |>.mp h3)) hnefr

theorem findMatch_mem : ∀ {reps : List Replacement} {s : Str} {r : Replacement},
    findMatch reps s = some r → r ∈ reps := by
  intro reps
  induction reps with
  | nil => intro s r h; simp [findMatch] at h
  | cons x rest ih =>
    intro s r h
    rw [findMatch] at h
    by_cases hx : matchesAt x s
    · rw [if_pos hx] at h
      exact (Option.some_inj.mp h) ▸ List.mem_cons_self x rest
    · rw [if_neg hx] at h
      exact List.mem_cons_of_mem x (ih h)

theorem findMatch_matches : ∀ {reps : List Replacement} {s : Str} {r : Replacement},
    findMatch reps s = some r → matchesAt r s = true := by
  intro reps
  induction reps with
  | nil => intro s r h; simp [findMatch] at h
  | cons x rest ih =>
    intro s r h
    rw [findMatch] at h
    by_cases hx : matchesAt x s
    · rw [if_pos hx] at h
      exact (Option.some_inj.mp h) ▸ hx
    · rw [if_neg hx] at h
      exact ih h

theorem findMatch_is_max {reps : List Replacement} {s : Str} {r : Replacement}
    (hp : List.Pairwise repStrict reps) (hfind : findMatch reps s = some r) :
    ∀ r' ∈ reps, matchesAt r' s = true → r' = r ∨ repStrict r r' := by
  induction reps with
  | nil => simp [findMatch] at hfind
  | cons x rest ih =>
    rw [List.pairwise_cons] at hp
    rw [findMatch] at hfind
    intro r' hr' hm
    by_cases hx : matchesAt x s
    · rw [if_pos hx] at hfind
      have hrx : x = r := Option.some_inj.mp hfind
      rcases List.mem_cons.mp hr' with rfl | hmem
      · exact Or.inl hrx
      · exact Or.inr (hrx ▸ hp.1 r' hmem)
    · rw [if_neg hx] at hfind
      rcases List.mem_cons.mp hr' with rfl | hmem
      · exact absurd hm hx
      · exact ih hp.2 hfind r' hmem hm

/-! ### Termination and identity properties of the scan loop -/

theorem replaceFuel_isSome {reps : List Replacement}
    (hlen : ∀ r ∈ reps, 1 ≤ r.len) :
    ∀ (fuel : Nat) (s : Str), s.length < fuel →
      ∃ out, replaceFuel reps fuel s = some out := by
  intro fuel
  induction fuel with
  | zero => intro s h; exact absurd h (Nat.not_lt_zero _)
  | succ n ih =>
    intro s hs
    cases s with
    | nil => exact ⟨[], rfl⟩
    | cons c rest =>
      have hrest : rest.length < n := by
        simp only [List.length_cons] at hs
        omega
      cases hfm : findMatch reps (c :: rest) with
      | none =>
        obtain ⟨out, hout⟩ := ih rest hrest
        exact ⟨c :: out, by simp [replaceFuel, hfm, hout]⟩
      | some r =>
        have hr1 : 1 ≤ r.len := hlen r (findMatch_mem hfm)
        have hdrop : ((c :: rest).drop r.len).length < n := by
          simp only [List.length_drop, List.length_cons]
          omega
        obtain ⟨out, hout⟩ := ih _ hdrop
        exact ⟨r.toStr ++ out, by simp [replaceFuel, hfm, hout]⟩

theorem replaceFuel_empty_pat (t : Str) (c : Char) (cs : Str) :
    ∀ fuel, replaceFuel [⟨[], t, 0⟩] fuel (c :: cs) = none := by
  intro fuel
  induction fuel with
  | zero => rfl
  | succ n ih =>
    have hfm : findMatch [⟨[], t, 0⟩] (c :: cs) = some ⟨[], t, 0⟩ := by
      simp [findMatch, matchesAt]
    simp [replaceFuel, hfm, ih]

theorem startsWith_of_take : ∀ (p s : Str) (n : Nat),
    s.take n = p → startsWith s p = true := by
  intro p
  induction p with
  | nil =>
    intro s n _
    cases s <;> rfl
  | cons d ds ih =>
    intro s n h
    cases s with
    | nil => simp at h
    | cons c cs =>
      cases n with
      | zero => simp at h
      | succ m =>
        simp only [List.take_succ_cons, List.cons.injEq] at h
        rw [startsWith, h.1]
        simp [ih cs m h.2]

theorem containsSeq_of_startsWith {p s : Str} (h : startsWith s p = true) :
    containsSeq p s = true := by
  cases s with
  | nil => exact h
  | cons c rest => simp [containsSeq, h]

theorem replaceFuel_id {reps : List Replacement} :
    ∀ (s : Str) (fuel : Nat),
      (∀ r ∈ reps, containsSeq r.fromStr s = false) → s.length < fuel →
      replaceFuel reps fuel s = some s := by
  intro s
  induction s with
  | nil =>
    intro fuel _ hf
    cases fuel with
    | zero => exact absurd hf (Nat.not_lt_zero _)
    | succ n => rfl
  | cons c rest ih =>
    intro fuel h hf
    cases fuel with
    | zero => exact absurd hf (Nat.not_lt_zero _)
    | succ n =>
      have hfm : findMatch reps (c :: rest) = none := by
        cases hfm : findMatch reps (c :: rest) with
        | none => rfl
        | some r =>
          have hmem := findMatch_mem hfm
          have hmatch := findMatch_matches hfm
          rw [matchesAt, Bool.and_eq_true, decide_eq_true_eq, decide_eq_true_eq] at hmatch
          have hocc : containsSeq r.fromStr (c :: rest) = true :=
            containsSeq_of_startsWith (startsWith_of_take _ _ _ hmatch.2)
          rw [h r hmem] at hocc
          exact absurd hocc (by simp)
      have hrest : ∀ r ∈ reps, containsSeq r.fromStr rest = false := by
        intro r hr
        have hc := h r hr
        rw [containsSeq, Bool.or_eq_false_iff] at hc
        exact hc.2
      have hn : rest.length < n := by
        simp only [List.length_cons] at hf
        omega
      simp [replaceFuel, hfm, ih n hrest hn]

/-- Shared helper: with every pattern nonempty the scan loop terminates and
`Replace` returns a result. -/
theorem Replace_total_of_nonempty (l : List (Str × Str))
    (hl : ∀ p ∈ l, p.1 ≠ []) (s : Str) :
    ∃ out, (newStringReplacer l).Replace s = some out := by
  by_cases h0 : (newStringReplacer l).replacements.length = 0
  · exact ⟨s, by simp [StringReplacer.Replace, h0]⟩
  · have hlen : ∀ r ∈ (newStringReplacer l).replacements, 1 ≤ r.len := by
      intro r hr
      have hr2 : r ∈ l.map mkRep := ((replacements_perm l).mem_iff).mp hr
      obtain ⟨p, hp, rfl⟩ := List.mem_map.mp hr2
      have : p.1 ≠ [] := hl p hp
      have : 0 < p.1.length := List.length_pos.mpr this
      simpa [mkRep] using this
    obtain ⟨out, hout⟩ :=
      replaceFuel_isSome hlen (s.length + 1) s (Nat.lt_succ_self _)
    exact ⟨out, by rw [StringReplacer.Replace, if_neg h0]; exact hout⟩

/-- C2: the table built at construction is pairwise sorted by strictly
descending pattern length, ties by strictly descending lexicographic order
(given the distinct keys of the input mapping); consequently the pattern the
scan applies at a position (the first match in table order) is maximal in
that order among all patterns matching there; in particular with the table
mapping "ab" to "X" and "abc" to "Y", Replace of "abc" yields "Y". -/
theorem table_sorted_longest_match (l : List (Str × Str))
    (hnd : (l.map (·.1)).Nodup) :
    List.Pairwise repStrict (newStringReplacer l).replacements ∧
    (∀ (s : Str) (r : Replacement),
        findMatch (newStringReplacer l).replacements s = some r →
        ∀ r' ∈ (newStringReplacer l).replacements, matchesAt r' s = true →
          r' = r ∨ repStrict r r') ∧
    (newStringReplacer [(['a','b'], ['X']), (['a','b','c'], ['Y'])]).Replace
        ['a','b','c'] = some ['Y'] := by
  refine ⟨replacements_pairwise_strict l hnd, ?_, by decide⟩
  intro s r hf r' hr' hm
  exact findMatch_is_max (replacements_pairwise_strict l hnd) hf r' hr' hm

/-- Witness for C2 at the concrete two-pattern table of the claim. -/
theorem table_sorted_longest_match_witness :
    (newStringReplacer [(['a','b'], ['X']), (['a','b','c'], ['Y'])]).Replace
        ['a','b','c'] = some ['Y'] :=
  (table_sorted_longest_match [(['a','b'], ['X']), (['a','b','c'], ['Y'])]
    (by decide)).2.2

/-- C6: with every pattern of the table nonempty, Replace terminates on every
input (the scan strictly advances, so input length plus one loop iterations
suffice); the precondition is necessary: with the empty-string pattern in the
table the scan position stops advancing and the loop never finishes, which the
fuel-indexed loop registers as `none` at every fuel. -/
theorem replace_total_iff_nonempty_patterns :
    (∀ (l : List (Str × Str)), (∀ p ∈ l, p.1 ≠ []) →
        ∀ s : Str, ∃ out, (newStringReplacer l).Replace s = some out) ∧
    (∀ fuel, replaceFuel [⟨[], ['X'], 0⟩] fuel ['a'] = none) ∧
    (newStringReplacer [([], ['X'])]).Replace ['a'] = none := by
  refine ⟨Replace_total_of_nonempty, replaceFuel_empty_pat ['X'] 'a' [], ?_⟩
  decide

/-- Witness for C6 on a concrete one-pattern table. -/
theorem replace_total_iff_nonempty_patterns_witness :
    ∃ out, (newStringReplacer [(['a'], ['b'])]).Replace ['a', 'c'] = some out :=
  replace_total_iff_nonempty_patterns.1 [(['a'], ['b'])] (by decide) ['a', 'c']

/-- C8: a replacer over the empty table is the identity on every string
(the fast path of the source), and a replacer over any table none of whose
patterns occurs in the input returns the input unchanged. -/
theorem replace_id_of_no_occurrence :
    (∀ s : Str, (newStringReplacer []).Replace s = some s) ∧
    (∀ (l : List (Str × Str)) (s : Str),
        (∀ r ∈ (newStringReplacer l).replacements, containsSeq r.fromStr s = false) →
        (newStringReplacer l).Replace s = some s) := by
  constructor
  · intro s
    rfl
  · intro l s h
    by_cases h0 : (newStringReplacer l).replacements.length = 0
    · simp [StringReplacer.Replace, h0]
    · rw [StringReplacer.Replace, if_neg h0]
      exact replaceFuel_id s (s.length + 1) h (Nat.lt_succ_self _)

/-- Witness for C8 on a table whose one pattern does not occur in the input. -/
theorem replace_id_of_no_occurrence_witness :
    (newStringReplacer [(['a'], ['b'])]).Replace ['z', 'y'] = some ['z', 'y'] :=
  replace_id_of_no_occurrence.2 [(['a'], ['b'])] ['z', 'y'] (by decide)

/-- C10 counterexample: one runtime operation of the core is not total —
Replace over a table holding the empty-string pattern never terminates
(the scan position stops advancing); in the fuel-indexed embedding the
canonical fuel, sufficient for every terminating scan, yields `none`. -/
theorem replace_diverges_on_empty_pattern :
    (newStringReplacer [([], ['Z'])]).Replace ['b', 'c'] = none := by
  decide

/-- C10 amended: matcher-pool construction with an invalid pattern fails
immediately with a configuration error surfaced to the caller (the Go code
halts with the offending pattern; no retry, no fallback), construction with
a valid pattern never fails, and the runtime operations surface no error and
are total except Replace on a table containing the empty-string pattern. -/
theorem construction_error_policy {R : Type} (compile : Str → Option R)
    (p : Str) :
    (compile p = none → newRegexPool compile p = Except.error p) ∧
    (∀ r, compile p = some r → newRegexPool compile p = Except.ok { pattern := r }) ∧
    (∀ (l : List (Str × Str)) (s : Str), (∀ q ∈ l, q.1 ≠ []) →
        ∃ out, (newStringReplacer l).Replace s = some out) := by
  refine ⟨fun h => ?_, fun r h => ?_, fun l s hl => Replace_total_of_nonempty l hl s⟩
  · simp [newRegexPool, h]
  · simp [newRegexPool, h]

/-- Witness for C10 with an always-failing compiler. -/
theorem construction_error_policy_witness :
    newRegexPool (fun _ => (none : Option Unit)) ['('] = Except.error ['('] :=
  (construction_error_policy (fun _ => (none : Option Unit)) ['(']).1 rfl

/-! ### Lemmas about the backing map -/

theorem mapLoad_delete_self (k : CacheKey) : ∀ m : CacheMap,
    mapLoad k (mapDelete k m) = none := by
  intro m
  induction m with
  | nil => rfl
  | cons e rest ih =>
    by_cases h : e.1 = k
    · simp [mapDelete, h, ih]
    · simp [mapDelete, mapLoad, h, ih]

theorem mapLoad_delete_ne {k k' : CacheKey} (h : k' ≠ k) : ∀ m : CacheMap,
    mapLoad k (mapDelete k' m) = mapLoad k m := by
  intro m
  induction m with
  | nil => rfl
  | cons e rest ih =>
    by_cases he : e.1 = k'
    · have : e.1 ≠ k := he ▸ h
      simp [mapDelete, mapLoad, he, this, h, ih]
    · simp [mapDelete, mapLoad, he, ih]

theorem mapLoad_store_self (k : CacheKey) (v : Int) (m : CacheMap) :
    mapLoad k (mapStore k v m) = some v := by
  simp [mapStore, mapLoad]

theorem mapLoad_store_ne {k k' : CacheKey} (h : k' ≠ k) (v : Int) (m : CacheMap) :
    mapLoad k (mapStore k' v m) = mapLoad k m := by
  simp [mapStore, mapLoad, h]
  exact mapLoad_delete_ne h m

theorem mapDelete_of_not_mem {k : CacheKey} : ∀ {m : CacheMap},
    k ∉ m.map (·.1) → mapDelete k m = m := by
  intro m
  induction m with
  | nil => intro _; rfl
  | cons e rest ih =>
    intro h
    simp only [List.map_cons, List.mem_cons] at h
    push_neg at h
    have he : e.1 ≠ k := fun hh => h.1 hh.symm
    simp [mapDelete, he, ih h.2]

theorem mapStore_of_not_mem {k : CacheKey} {m : CacheMap}
    (h : k ∉ m.map (·.1)) (v : Int) : mapStore k v m = (k, v) :: m := by
  rw [mapStore, mapDelete_of_not_mem h]

theorem mapLoad_eq_none_of_not_mem {k : CacheKey} : ∀ {m : CacheMap},
    k ∉ m.map (·.1) → mapLoad k m = none := by
  intro m
  induction m with
  | nil => intro _; rfl
  | cons e rest ih =>
    intro h
    simp only [List.map_cons, List.mem_cons] at h
    push_neg at h
    have he : e.1 ≠ k := fun hh => h.1 hh.symm
    simp [mapLoad, he, ih h.2]

theorem mapLoad_of_mem_nodup : ∀ {m : CacheMap} {e : CacheKey × Int},
    (m.map (·.1)).Nodup → e ∈ m → mapLoad e.1 m = some e.2 := by
  intro m
  induction m with
  | nil => intro e _ he; simp at he
  | cons x rest ih =>
    intro e hnd he
    simp only [List.map_cons, List.nodup_cons] at hnd
    rcases List.mem_cons.mp he with rfl | hmem
    · simp [mapLoad]
    · have hx : x.1 ≠ e.1 := by
        intro hh
        exact hnd.1 (hh ▸ List.mem_map_of_mem (·.1) hmem)
      simp [mapLoad, hx, ih hnd.2 hmem]

theorem mapDelete_getLast : ∀ (m : CacheMap) (e : CacheKey × Int),
    (m.map (·.1)).Nodup → m.getLast? = some e → mapDelete e.1 m = m.dropLast := by
  intro m
  induction m with
  | nil => intro e _ h; simp at h
  | cons x rest ih =>
    intro e hnd h
    cases rest with
    | nil =>
      simp only [List.getLast?_singleton, Option.some_inj] at h
      subst h
      simp [mapDelete, mapDelete_of_not_mem]
    | cons y ys =>
      rw [List.getLast?_cons_cons] at h
      have happ : (y :: ys).dropLast ++ [e] = y :: ys :=
        List.dropLast_append_getLast? e h
      have hmem : e ∈ y :: ys := by
        rw [← happ]
        simp
      rw [List.map_cons, List.nodup_cons] at hnd
      have hne : x.1 ≠ e.1 := by
        intro hh
        have hmm : e.1 ∈ (y :: ys).map (fun p : CacheKey × Int => p.1) :=
          List.mem_map_of_mem (fun p : CacheKey × Int => p.1) hmem
        rw [← hh] at hmm
        exact hnd.1 hmm
      have hrec := ih e hnd.2 h
      show (if x.1 = e.1 then mapDelete e.1 (y :: ys)
            else x :: mapDelete e.1 (y :: ys)) = (x :: y :: ys).dropLast
      rw [if_neg hne, hrec]
      simp

/-! ### Step semantics of the cache operations -/

theorem getOp_state (c : EraCache) (k : CacheKey) :
    (c.getOp k).2.cache = c.cache ∧ (c.getOp k).2.lruList = c.lruList ∧
    (c.getOp k).2.maxSize = c.maxSize ∧ (c.getOp k).2.evictions = c.evictions := by
  unfold EraCache.getOp
  cases mapLoad k c.cache <;> simp

theorem evictStep_of_lt (c : EraCache) (h : c.lruList.length < c.maxSize) :
    c.evictStep = c := by
  unfold EraCache.evictStep
  rw [if_neg (by omega)]

theorem setOp_of_lt (c : EraCache) (k : CacheKey) (v : Int)
    (h : c.lruList.length < c.maxSize) :
    c.setOp k v =
      { c with cache := mapStore k v c.cache, lruList := k :: c.lruList } := by
  unfold EraCache.setOp addToFront
  rw [evictStep_of_lt c h]

theorem removeLeastRecent_of_getLast {l : List CacheKey} {e : CacheKey}
    (h : l.getLast? = some e) : removeLeastRecent l = (e, l.dropLast) := by
  rw [removeLeastRecent, h]

theorem evictStep_of_full_nonzero (c : EraCache) (e : CacheKey)
    (hfull : c.maxSize ≤ c.lruList.length) (hgl : c.lruList.getLast? = some e)
    (hz : e.ceYear ≠ 0) :
    c.evictStep =
      { c with
          lruList := c.lruList.dropLast
          cache := mapDelete e c.cache
          evictions := c.evictions + 1 } := by
  unfold EraCache.evictStep
  rw [if_pos hfull, removeLeastRecent_of_getLast hgl]
  simp [hz]

theorem setOp_of_full_nonzero (c : EraCache) (e : CacheKey) (k : CacheKey)
    (v : Int) (hfull : c.maxSize ≤ c.lruList.length)
    (hgl : c.lruList.getLast? = some e) (hz : e.ceYear ≠ 0) :
    c.setOp k v =
      { c with
          cache := mapStore k v (mapDelete e c.cache)
          lruList := k :: c.lruList.dropLast
          evictions := c.evictions + 1 } := by
  unfold EraCache.setOp addToFront
  rw [evictStep_of_full_nonzero c e hfull hgl hz]

theorem setOp_cache (c : EraCache) (k : CacheKey) (v : Int) :
    (c.setOp k v).cache = mapStore k v c.evictStep.cache := rfl

theorem setOp_lru (c : EraCache) (k : CacheKey) (v : Int) :
    (c.setOp k v).lruList = k :: c.evictStep.lruList := rfl

theorem setOp_evictions (c : EraCache) (k : CacheKey) (v : Int) :
    (c.setOp k v).evictions = c.evictStep.evictions := rfl

theorem setOp_maxSize (c : EraCache) (k : CacheKey) (v : Int) :
    (c.setOp k v).maxSize = c.evictStep.maxSize := rfl

theorem evictStep_cache_cases (c : EraCache) :
    c.evictStep.cache = c.cache ∨
    (c.maxSize ≤ c.lruList.length ∧
     (removeLeastRecent c.lruList).1.ceYear ≠ 0 ∧
     c.evictStep.cache = mapDelete (removeLeastRecent c.lruList).1 c.cache) := by
  unfold EraCache.evictStep
  by_cases hg : c.maxSize ≤ c.lruList.length
  · rw [if_pos hg]
    by_cases hz : (removeLeastRecent c.lruList).1.ceYear ≠ 0
    · right
      exact ⟨hg, hz, by simp [hz]⟩
    · left
      simp [hz]
  · left
    rw [if_neg hg]

theorem evictStep_load_preserved {c : EraCache} {k : CacheKey}
    (hno : ¬(c.maxSize ≤ c.lruList.length ∧
             (removeLeastRecent c.lruList).1 = k ∧ k.ceYear ≠ 0)) :
    mapLoad k c.evictStep.cache = mapLoad k c.cache := by
  rcases evictStep_cache_cases c with h | ⟨hg, hz, hc⟩
  · rw [h]
  · rw [hc]
    have hne : (removeLeastRecent c.lruList).1 ≠ k := by
      intro he
      exact hno ⟨hg, he, he ▸ hz⟩
    exact mapLoad_delete_ne hne c.cache

theorem opEvicts_set_false {c : EraCache} {k k' : CacheKey} {v : Int}
    (h : opEvicts c (.set k' v) k = false) :
    ¬(c.maxSize ≤ c.lruList.length ∧
      (removeLeastRecent c.lruList).1 = k ∧ k.ceYear ≠ 0) := by
  rintro ⟨h1, h2, h3⟩
  rw [opEvicts] at h
  simp [h1, h2, h3] at h

theorem mapLoad_preserved_of_noTouch : ∀ (ops : List CacheOp) (c : EraCache)
    (k : CacheKey) (v : Int),
    mapLoad k c.cache = some v → noTouchKey c k ops = true →
    mapLoad k (runOps c ops).cache = some v := by
  intro ops
  induction ops with
  | nil => intro c k v hv _; exact hv
  | cons op rest ih =>
    intro c k v hv hn
    rw [noTouchKey] at hn
    simp only [Bool.and_eq_true, Bool.not_eq_true'] at hn
    obtain ⟨⟨⟨hcl, hev⟩, hsk⟩, hrest⟩ := hn
    have hstep : mapLoad k (applyOp c op).cache = some v := by
      cases op with
      | clear => simp [isClear] at hcl
      | get k' =>
        show mapLoad k ((c.getOp k').2).cache = some v
        rw [(getOp_state c k').1]
        exact hv
      | set k' v' =>
        have hkk : k' ≠ k := by simpa [opSetsKey] using hsk
        show mapLoad k (c.setOp k' v').cache = some v
        rw [setOp_cache, mapLoad_store_ne hkk,
          evictStep_load_preserved (opEvicts_set_false hev)]
        exact hv
    exact ih (applyOp c op) k v hstep hrest

/-- C1 counterexample: the claim as stated fails when another `Set` of the
same key intervenes — the trace holds `Set(k, 1)` followed later by
`Get(k)` with no `Clear` and no eviction of `k` in between, yet `Get`
returns `(2, true)`, not `(1, true)`. -/
theorem C1_counterexample :
    noClearNoEvict ((newEraCache 4).setOp ⟨2000, 1⟩ 1) ⟨2000, 1⟩
        [.set ⟨2000, 1⟩ 2] = true ∧
    ((runOps ((newEraCache 4).setOp ⟨2000, 1⟩ 1) [.set ⟨2000, 1⟩ 2]).getOp
        ⟨2000, 1⟩).1 = (2, true) ∧
    ((runOps ((newEraCache 4).setOp ⟨2000, 1⟩ 1) [.set ⟨2000, 1⟩ 2]).getOp
        ⟨2000, 1⟩).1 ≠ (1, true) := by
  decide

/-- C1 amended: after `Set(k, v)`, running any trace containing no `Clear`,
no eviction of `k`, and no other `Set` of `k`, a `Get(k)` returns `(v, true)`
and bumps the hit counter, leaving the miss counter unchanged. -/
theorem set_then_get_hits (c : EraCache) (k : CacheKey) (v : Int)
    (mid : List CacheOp) (hmid : noTouchKey (c.setOp k v) k mid = true) :
    ((runOps (c.setOp k v) mid).getOp k).1 = (v, true) ∧
    ((runOps (c.setOp k v) mid).getOp k).2.hits =
      (runOps (c.setOp k v) mid).hits + 1 ∧
    ((runOps (c.setOp k v) mid).getOp k).2.misses =
      (runOps (c.setOp k v) mid).misses := by
  have h0 : mapLoad k (c.setOp k v).cache = some v := by
    rw [setOp_cache]
    exact mapLoad_store_self k v _
  have hfin := mapLoad_preserved_of_noTouch mid _ k v h0 hmid
  unfold EraCache.getOp
  rw [hfin]
  exact ⟨rfl, rfl, rfl⟩

/-- Witness for C1 at a concrete trace with an unrelated Get in between. -/
theorem set_then_get_hits_witness :
    ((runOps ((newEraCache 3).setOp ⟨7, 2⟩ 9) [.get ⟨8, 2⟩]).getOp ⟨7, 2⟩).1 =
      (9, true) :=
  (set_then_get_hits (newEraCache 3) ⟨7, 2⟩ 9 [.get ⟨8, 2⟩] (by decide)).1

/-- C3 counterexample: `Get` does not promote.  Capacity 2; after setting
keys `k1, k2` and then reading `k1` (so `k1` is most recently used), the next
overflow `Set` evicts `k1` itself while the less recently used `k2` survives,
and a later `Get(k1)` misses. -/
theorem C3_counterexample :
    ((runOps (newEraCache 2)
        [.set ⟨2001, 1⟩ 10, .set ⟨2002, 1⟩ 20, .get ⟨2001, 1⟩,
         .set ⟨2003, 1⟩ 30]).getOp ⟨2001, 1⟩).1 = (0, false) ∧
    mapLoad ⟨2002, 1⟩ (runOps (newEraCache 2)
        [.set ⟨2001, 1⟩ 10, .set ⟨2002, 1⟩ 20, .get ⟨2001, 1⟩,
         .set ⟨2003, 1⟩ 30]).cache = some 20 ∧
    (runOps (newEraCache 2)
        [.set ⟨2001, 1⟩ 10, .set ⟨2002, 1⟩ 20, .get ⟨2001, 1⟩]).lruList =
      [⟨2002, 1⟩, ⟨2001, 1⟩] := by
  decide

/-- C3 amended: `Get` reads the backing map only — it never modifies the
map, the recency list, the capacity, or the eviction counter; on a hit it
returns the cached value with `found = true` and bumps the hit counter, on a
miss it returns `(0, false)` and bumps the miss counter. -/
theorem get_semantics (c : EraCache) (k : CacheKey) :
    ((c.getOp k).2.lruList = c.lruList ∧ (c.getOp k).2.cache = c.cache ∧
     (c.getOp k).2.maxSize = c.maxSize ∧
     (c.getOp k).2.evictions = c.evictions) ∧
    (∀ v, mapLoad k c.cache = some v →
       (c.getOp k).1 = (v, true) ∧ (c.getOp k).2.hits = c.hits + 1 ∧
       (c.getOp k).2.misses = c.misses) ∧
    (mapLoad k c.cache = none →
       (c.getOp k).1 = (0, false) ∧ (c.getOp k).2.misses = c.misses + 1 ∧
       (c.getOp k).2.hits = c.hits) := by
  refine ⟨⟨(getOp_state c k).2.1, (getOp_state c k).1,
    (getOp_state c k).2.2.1, (getOp_state c k).2.2.2⟩, ?_, ?_⟩
  · intro v hv
    unfold EraCache.getOp
    rw [hv]
    exact ⟨rfl, rfl, rfl⟩
  · intro hv
    unfold EraCache.getOp
    rw [hv]
    exact ⟨rfl, rfl, rfl⟩

/-- Witness for C3 on a concrete hit. -/
theorem get_semantics_witness :
    (((newEraCache 4).setOp ⟨5, 1⟩ 9).getOp ⟨5, 1⟩).1 = (9, true) :=
  ((get_semantics ((newEraCache 4).setOp ⟨5, 1⟩ 9) ⟨5, 1⟩).2.1 9 (by decide)).1

/-- C4: at the failing input the bound is violated.  Capacity 1; setting the
key with year 0 and then a second key leaves two live entries in the backing
map, because the eviction block treats the zero-valued popped key as nothing
to evict: the map deletion and the eviction count are skipped (the spec flags
exactly this as a latent edge-case bug of the reference implementation). -/
theorem C4_map_exceeds_capacity :
    (runOps (newEraCache 1) [.set ⟨0, 3⟩ 5, .set ⟨1, 3⟩ 6]).maxSize = 1 ∧
    (runOps (newEraCache 1) [.set ⟨0, 3⟩ 5, .set ⟨1, 3⟩ 6]).cache.length = 2 ∧
    (runOps (newEraCache 1) [.set ⟨0, 3⟩ 5, .set ⟨1, 3⟩ 6]).evictions = 0 ∧
    mapLoad ⟨0, 3⟩ (runOps (newEraCache 1)
        [.set ⟨0, 3⟩ 5, .set ⟨1, 3⟩ 6]).cache = some 5 ∧
    (runOps (newEraCache 1) [.set ⟨0, 3⟩ 5, .set ⟨1, 3⟩ 6]).lruList.length = 1 := by
  decide

/-- C7: after `Clear`, every `Get` misses (any previously cached key included)
and `Stats` reports all three counters zero; the capacity is preserved. -/
theorem clear_resets (c : EraCache) (k : CacheKey) :
    (c.clearOp.getOp k).1 = (0, false) ∧ c.clearOp.statsOp = (0, 0, 0) ∧
    c.clearOp.maxSize = c.maxSize := by
  exact ⟨rfl, rfl, rfl⟩

/-! ### The sliding-window invariant for distinct nonzero-year inserts -/

theorem setAll_window : ∀ (kvs : List (CacheKey × Int)) (c : EraCache),
    1 ≤ c.maxSize →
    c.lruList = c.cache.map (·.1) →
    c.cache.length ≤ c.maxSize →
    (c.cache.map (·.1) ++ kvs.map (·.1)).Nodup →
    (∀ e ∈ c.cache, e.1.ceYear ≠ 0) →
    (∀ kv ∈ kvs, kv.1.ceYear ≠ 0) →
    (setAll c kvs).cache = (kvs.reverse ++ c.cache).take c.maxSize ∧
    (setAll c kvs).lruList =
      ((kvs.reverse ++ c.cache).take c.maxSize).map (·.1) ∧
    (setAll c kvs).evictions =
      c.evictions +
        (c.cache.length + kvs.length - min (c.cache.length + kvs.length) c.maxSize) ∧
    (setAll c kvs).maxSize = c.maxSize := by
  intro kvs
  induction kvs with
  | nil =>
    intro c h1 h2 h3 _ _ _
    refine ⟨?_, ?_, ?_, rfl⟩
    · simp [setAll, List.take_of_length_le h3]
    · simp [setAll, List.take_of_length_le h3, h2]
    · simp only [setAll, List.length_nil]
      omega
  | cons kv rest ih =>
    obtain ⟨k0, v0⟩ := kv
    intro c h1 h2 h3 h4 h5 h6
    rw [List.map_cons] at h4
    have hknotin : k0 ∉ c.cache.map (·.1) := fun hmem =>
      ((List.nodup_append.mp h4).2.2 hmem) (List.mem_cons_self _ _)
    have hlru_len : c.lruList.length = c.cache.length := by
      rw [h2, List.length_map]
    rcases lt_or_eq_of_le h3 with hlt | heq
    · -- the list is below capacity: no eviction
      have hev : c.evictStep = c := evictStep_of_lt c (by omega)
      have e1 : (c.setOp k0 v0).cache = (k0, v0) :: c.cache := by
        rw [setOp_cache, hev, mapStore_of_not_mem hknotin]
      have e2 : (c.setOp k0 v0).lruList =
          (((k0, v0) : CacheKey × Int) :: c.cache).map (·.1) := by
        rw [setOp_lru, hev, h2, List.map_cons]
      have e3 : (c.setOp k0 v0).evictions = c.evictions := by
        rw [setOp_evictions, hev]
      have e4 : (c.setOp k0 v0).maxSize = c.maxSize := by
        rw [setOp_maxSize, hev]
      have h4' : ((c.setOp k0 v0).cache.map (·.1) ++ rest.map (·.1)).Nodup := by
        rw [e1, List.map_cons]
        have := (List.perm_middle.nodup_iff).mp h4
        simpa using this
      have h5' : ∀ e ∈ (c.setOp k0 v0).cache, e.1.ceYear ≠ 0 := by
        rw [e1]
        intro e he
        rcases List.mem_cons.mp he with rfl | hm
        · exact h6 _ (List.mem_cons_self _ _)
        · exact h5 e hm
      have h6' : ∀ kv' ∈ rest, kv'.1.ceYear ≠ 0 := fun kv' h =>
        h6 kv' (List.mem_cons_of_mem _ h)
      obtain ⟨ihc, ihl, ihe, ihm⟩ := ih (c.setOp k0 v0)
        (by rw [e4]; exact h1)
        (by rw [e2, e1])
        (by rw [e1, e4]; simp only [List.length_cons]; omega)
        h4' h5' h6'
      have hlist : rest.reverse ++ (c.setOp k0 v0).cache =
          (((k0, v0) : CacheKey × Int) :: rest).reverse ++ c.cache := by
        rw [e1]
        simp [List.reverse_cons]
      refine ⟨?_, ?_, ?_, ?_⟩
      · rw [show setAll c ((k0, v0) :: rest) = setAll (c.setOp k0 v0) rest from rfl,
          ihc, e4, hlist]
      · rw [show setAll c ((k0, v0) :: rest) = setAll (c.setOp k0 v0) rest from rfl,
          ihl, e4, hlist]
      · rw [show setAll c ((k0, v0) :: rest) = setAll (c.setOp k0 v0) rest from rfl,
          ihe, e1, e3, e4]
        simp only [List.length_cons]
        omega
      · rw [show setAll c ((k0, v0) :: rest) = setAll (c.setOp k0 v0) rest from rfl,
          ihm, e4]
    · -- the list is exactly at capacity: the oldest entry is evicted
      have hcne : c.cache ≠ [] := by
        have : 0 < c.cache.length := by omega
        exact List.length_pos.mp this
      obtain ⟨e, hgl⟩ : ∃ e, c.cache.getLast? = some e := by
        cases hq : c.cache.getLast? with
        | none => exact absurd (List.getLast?_eq_none_iff.mp hq) hcne
        | some e => exact ⟨e, rfl⟩
      have happ : c.cache.dropLast ++ [e] = c.cache :=
        List.dropLast_append_getLast? e hgl
      have hemem : e ∈ c.cache := by
        rw [← happ]
        simp
      have hgl_lru : c.lruList.getLast? = some e.1 := by
        rw [h2, List.getLast?_map, hgl]
        rfl
      have hez : e.1.ceYear ≠ 0 := h5 e hemem
      have hndc : (c.cache.map (·.1)).Nodup := (List.nodup_append.mp h4).1
      have hdel : mapDelete e.1 c.cache = c.cache.dropLast :=
        mapDelete_getLast c.cache e hndc hgl
      have hk0dl : k0 ∉ c.cache.dropLast.map (·.1) := by
        intro hm
        obtain ⟨p, hp, hpe⟩ := List.mem_map.mp hm
        exact hknotin (hpe ▸ List.mem_map_of_mem (fun q : CacheKey × Int => q.1)
          ((List.dropLast_sublist _).subset hp))
      have hset := setOp_of_full_nonzero c e.1 k0 v0 (by omega) hgl_lru hez
      have e1 : (c.setOp k0 v0).cache = (k0, v0) :: c.cache.dropLast := by
        rw [hset]
        show mapStore k0 v0 (mapDelete e.1 c.cache) = _
        rw [hdel, mapStore_of_not_mem hk0dl]
      have e2 : (c.setOp k0 v0).lruList =
          (((k0, v0) : CacheKey × Int) :: c.cache.dropLast).map (·.1) := by
        rw [hset]
        show k0 :: c.lruList.dropLast = _
        rw [h2, List.map_cons, ← List.map_dropLast]
      have e3 : (c.setOp k0 v0).evictions = c.evictions + 1 := by
        rw [hset]
      have e4 : (c.setOp k0 v0).maxSize = c.maxSize := by
        rw [hset]
      have h4' : ((c.setOp k0 v0).cache.map (·.1) ++ rest.map (·.1)).Nodup := by
        rw [e1, List.map_cons]
        have hsub : List.Sublist
            ((c.cache.map (·.1)).dropLast ++ k0 :: rest.map (·.1))
            (c.cache.map (·.1) ++ k0 :: rest.map (·.1)) :=
          (List.dropLast_sublist _).append_right _
        have hnod1 := hsub.nodup h4
        have hnod2 := (List.perm_middle.nodup_iff).mp hnod1
        rw [← List.map_dropLast] at hnod2
        simpa using hnod2
      have h5' : ∀ p ∈ (c.setOp k0 v0).cache, p.1.ceYear ≠ 0 := by
        rw [e1]
        intro p hp
        rcases List.mem_cons.mp hp with rfl | hm
        · exact h6 _ (List.mem_cons_self _ _)
        · exact h5 p ((List.dropLast_sublist _).subset hm)
      have h6' : ∀ kv' ∈ rest, kv'.1.ceYear ≠ 0 := fun kv' h =>
        h6 kv' (List.mem_cons_of_mem _ h)
      obtain ⟨ihc, ihl, ihe, ihm⟩ := ih (c.setOp k0 v0)
        (by rw [e4]; exact h1)
        (by rw [e2, e1])
        (by rw [e1, e4]; simp only [List.length_cons, List.length_dropLast]; omega)
        h4' h5' h6'
      have hAlen : c.maxSize ≤
          (rest.reverse ++ (((k0, v0) : CacheKey × Int) :: c.cache.dropLast)).length := by
        simp only [List.length_append, List.length_reverse, List.length_cons,
          List.length_dropLast]
        omega
      have hsplit : (((k0, v0) : CacheKey × Int) :: rest).reverse ++ c.cache =
          (rest.reverse ++ (((k0, v0) : CacheKey × Int) :: c.cache.dropLast)) ++ [e] := by
        rw [← happ]
        simp
      have hwin : ((((k0, v0) : CacheKey × Int) :: rest).reverse ++ c.cache).take c.maxSize =
          (rest.reverse ++ (((k0, v0) : CacheKey × Int) :: c.cache.dropLast)).take c.maxSize := by
        rw [hsplit, List.take_append_of_le_length hAlen]
      refine ⟨?_, ?_, ?_, ?_⟩
      · rw [show setAll c ((k0, v0) :: rest) = setAll (c.setOp k0 v0) rest from rfl,
          ihc, e4, e1, hwin]
      · rw [show setAll c ((k0, v0) :: rest) = setAll (c.setOp k0 v0) rest from rfl,
          ihl, e4, e1, hwin]
      · rw [show setAll c ((k0, v0) :: rest) = setAll (c.setOp k0 v0) rest from rfl,
          ihe, e1, e3, e4]
        simp only [List.length_cons, List.length_dropLast]
        omega
      · rw [show setAll c ((k0, v0) :: rest) = setAll (c.setOp k0 v0) rest from rfl,
          ihm, e4]

/-- C5 counterexample: with a year-0 key first, the overflow insert does not
evict the first-inserted key and does not bump the eviction counter —
capacity 2, three distinct keys, yet zero evictions and the first key still
loadable. -/
theorem C5_counterexample :
    (runOps (newEraCache 2)
        [.set ⟨0, 7⟩ 50, .set ⟨1, 7⟩ 51, .set ⟨2, 7⟩ 52]).evictions = 0 ∧
    mapLoad ⟨0, 7⟩ (runOps (newEraCache 2)
        [.set ⟨0, 7⟩ 50, .set ⟨1, 7⟩ 51, .set ⟨2, 7⟩ 52]).cache = some 50 := by
  decide

/-- C5 amended: for keys whose year component is nonzero, inserting distinct
keys in order into a fresh capacity-N cache evicts in insertion order: after
the whole run exactly `length - N` evictions have happened (one per overflow
insert), every key outside the last N inserted misses, and each of the last N
inserted keys is still retrievable with its value. -/
theorem fifo_eviction (N : Int) (hN : 1 ≤ N) (kvs : List (CacheKey × Int))
    (hnd : (kvs.map (·.1)).Nodup) (hz : ∀ kv ∈ kvs, kv.1.ceYear ≠ 0)
    (hlen : N.toNat ≤ kvs.length) :
    (setAll (newEraCache N) kvs).evictions = kvs.length - N.toNat ∧
    (∀ kv ∈ kvs.take (kvs.length - N.toNat),
        mapLoad kv.1 (setAll (newEraCache N) kvs).cache = none) ∧
    (∀ kv ∈ kvs.drop (kvs.length - N.toNat),
        mapLoad kv.1 (setAll (newEraCache N) kvs).cache = some kv.2) := by
  have hmax : (newEraCache N).maxSize = N.toNat := by
    show (if N ≤ 0 then DefaultMaxCacheSize else N.toNat) = N.toNat
    rw [if_neg (by omega)]
  obtain ⟨hc, hl, he, hm⟩ := setAll_window kvs (newEraCache N)
    (by rw [hmax]; omega)
    rfl
    (by rw [hmax]; exact Nat.zero_le _)
    (by simpa using hnd)
    (fun e he => absurd he (List.not_mem_nil e))
    hz
  have hcache : (setAll (newEraCache N) kvs).cache = kvs.reverse.take N.toNat := by
    rw [hc, hmax]
    simp [newEraCache]
  have hevic : (setAll (newEraCache N) kvs).evictions = kvs.length - N.toNat := by
    rw [he, hmax]
    simp [newEraCache]
    omega
  have hTD := List.take_append_drop (kvs.length - N.toNat) kvs
  have hDlen : (kvs.drop (kvs.length - N.toNat)).length = N.toNat := by
    rw [List.length_drop]
    omega
  have hwinD : kvs.reverse.take N.toNat =
      (kvs.drop (kvs.length - N.toNat)).reverse := by
    conv_lhs => rw [← hTD]
    rw [List.reverse_append,
      List.take_append_of_le_length (by simp [hDlen]),
      List.take_of_length_le (by simp [hDlen])]
  have hndTD : ((kvs.take (kvs.length - N.toNat)).map (·.1) ++
      (kvs.drop (kvs.length - N.toNat)).map (·.1)).Nodup := by
    rw [← List.map_append, hTD]
    exact hnd
  obtain ⟨hndT, hndD, hdisj⟩ := List.nodup_append.mp hndTD
  refine ⟨hevic, ?_, ?_⟩
  · intro kv hkv
    rw [hcache, hwinD]
    apply mapLoad_eq_none_of_not_mem
    intro hmem
    rw [List.map_reverse, List.mem_reverse] at hmem
    exact hdisj (List.mem_map_of_mem (fun q : CacheKey × Int => q.1) hkv) hmem
  · intro kv hkv
    rw [hcache, hwinD]
    apply mapLoad_of_mem_nodup
    · rw [List.map_reverse, List.nodup_reverse]
      exact hndD
    · rw [List.mem_reverse]
      exact hkv

/-- Witness for C5: capacity 5, years 2000 to 2009 — exactly 5 evictions,
year 2009 retrievable, year 2000 evicted. -/
theorem fifo_eviction_witness :
    (setAll (newEraCache 5) yearKvs).evictions = 5 ∧
    mapLoad ⟨2009, 1⟩ (setAll (newEraCache 5) yearKvs).cache = some 2552 ∧
    mapLoad ⟨2000, 1⟩ (setAll (newEraCache 5) yearKvs).cache = none := by
  have h := fifo_eviction 5 (by omega) yearKvs (by decide) (by decide) (by decide)
  exact ⟨h.1.trans (by decide), h.2.2 (⟨2009, 1⟩, 2552) (by decide),
    h.2.1 (⟨2000, 1⟩, 2543) (by decide)⟩

/-! ### Recency-list accounting -/

theorem evictStep_lru_length (c : EraCache) :
    c.evictStep.lruList.length +
      (if c.maxSize ≤ c.lruList.length ∧ c.lruList ≠ [] then 1 else 0) =
      c.lruList.length := by
  by_cases hg : c.maxSize ≤ c.lruList.length
  · cases hq : c.lruList.getLast? with
    | none =>
      have hnil := List.getLast?_eq_none_iff.mp hq
      unfold EraCache.evictStep removeLeastRecent
      rw [if_pos hg, hq]
      simp [hnil]
    | some e =>
      have hne : c.lruList ≠ [] := by
        intro h
        rw [h] at hq
        simp at hq
      have hp : 0 < c.lruList.length := List.length_pos.mpr hne
      by_cases hz : e.ceYear ≠ 0
      · rw [evictStep_of_full_nonzero c e hg hq hz]
        simp only [List.length_dropLast, if_pos (And.intro hg hne)]
        omega
      · unfold EraCache.evictStep removeLeastRecent
        rw [if_pos hg, hq]
        simp only [hz, if_neg, ite_false, if_pos (And.intro hg hne)]
        simp only [List.length_dropLast]
        omega
  · rw [evictStep_of_lt c (by omega)]
    have : ¬(c.maxSize ≤ c.lruList.length ∧ c.lruList ≠ []) := fun h => hg h.1
    rw [if_neg this]
    omega

theorem lru_length_accounting : ∀ (ops : List CacheOp) (c : EraCache),
    hasClear ops = false →
    (runOps c ops).lruList.length + listRemovals c ops =
      c.lruList.length + countSets ops := by
  intro ops
  induction ops with
  | nil => intro c _; simp [runOps, listRemovals, countSets]
  | cons op rest ih =>
    intro c hnc
    rw [hasClear, Bool.or_eq_false_iff] at hnc
    cases op with
    | clear => simp [isClear] at hnc
    | get k' =>
      have hrec := ih (applyOp c (.get k')) hnc.2
      simp only [applyOp] at hrec
      have hlru : ((c.getOp k').2).lruList = c.lruList := (getOp_state c k').2.1
      rw [listRemovals, countSets, runOps]
      simp only [applyOp]
      rw [hlru] at hrec
      omega
    | set k' v' =>
      have hrec := ih (applyOp c (.set k' v')) hnc.2
      simp only [applyOp] at hrec
      have hlen : (c.setOp k' v').lruList.length =
          c.evictStep.lruList.length + 1 := by
        rw [setOp_lru, List.length_cons]
      have hacc := evictStep_lru_length c
      rw [listRemovals, countSets, runOps]
      simp only [applyOp]
      rw [hlen] at hrec
      omega

/-- C9 counterexample: for a key whose year component is 0, repeatedly
Setting that key on a cache at capacity does not delete its entry from the
backing map and does not count an eviction — the eviction block treats the
popped zero-valued key as nothing to evict.  Capacity 1, key with year 0:
after the eviction block of the second `Set` the entry is still loaded, and
after the whole `Set` the eviction counter is still 0. -/
theorem C9_counterexample :
    mapLoad ⟨0, 5⟩ (((newEraCache 1).setOp ⟨0, 5⟩ 1).evictStep).cache = some 1 ∧
    (((newEraCache 1).setOp ⟨0, 5⟩ 1).setOp ⟨0, 5⟩ 2).evictions = 0 ∧
    mapLoad ⟨0, 5⟩ ((((newEraCache 1).setOp ⟨0, 5⟩ 1).setOp ⟨0, 5⟩ 2)).cache =
      some 2 := by
  decide

/-- C9 amended: every `Set` pushes a fresh node onto the front of the recency
list even when the key is already tracked (no deduplication, no promotion),
so over any clear-free trace the list length satisfies: final length plus the
number of list removals equals the initial length plus the number of `Set`
calls; and a `Set` of a key whose year component is nonzero that is itself
the least-recent node of a full list evicts that very key — the eviction
block deletes its entry from the backing map and bumps the eviction
counter — before the same `Set` republishes it. -/
theorem set_no_dedup (c : EraCache) (k : CacheKey) (v : Int)
    (ops : List CacheOp) :
    ((c.setOp k v).lruList = k :: c.evictStep.lruList) ∧
    (hasClear ops = false →
      (runOps c ops).lruList.length + listRemovals c ops =
        c.lruList.length + countSets ops) ∧
    (c.maxSize ≤ c.lruList.length → c.lruList.getLast? = some k →
      k.ceYear ≠ 0 →
      mapLoad k c.evictStep.cache = none ∧
      (c.setOp k v).evictions = c.evictions + 1 ∧
      (c.setOp k v).lruList = k :: c.lruList.dropLast ∧
      mapLoad k (c.setOp k v).cache = some v) := by
  refine ⟨setOp_lru c k v, lru_length_accounting ops c, ?_⟩
  intro hfull hgl hz
  have hes := evictStep_of_full_nonzero c k hfull hgl hz
  refine ⟨?_, ?_, ?_, ?_⟩
  · rw [hes]
    exact mapLoad_delete_self k c.cache
  · rw [setOp_evictions, hes]
  · rw [setOp_lru, hes]
  · rw [setOp_cache]
    exact mapLoad_store_self k v _

/-- Witness for C9: capacity 2, the same key set twice (list `[k, k]`), a
third `Set` of `k` evicts `k` itself and then republishes it. -/
theorem set_no_dedup_witness :
    mapLoad ⟨9, 4⟩
        ((((newEraCache 2).setOp ⟨9, 4⟩ 1).setOp ⟨9, 4⟩ 2).evictStep).cache =
      none ∧
    ((((newEraCache 2).setOp ⟨9, 4⟩ 1).setOp ⟨9, 4⟩ 2).setOp ⟨9, 4⟩ 3).evictions =
      (((newEraCache 2).setOp ⟨9, 4⟩ 1).setOp ⟨9, 4⟩ 2).evictions + 1 ∧
    mapLoad ⟨9, 4⟩
        (((((newEraCache 2).setOp ⟨9, 4⟩ 1).setOp ⟨9, 4⟩ 2).setOp ⟨9, 4⟩ 3).cache) =
      some 3 := by
  have h := (set_no_dedup (((newEraCache 2).setOp ⟨9, 4⟩ 1).setOp ⟨9, 4⟩ 2)
    ⟨9, 4⟩ 3 []).2.2 (by decide) (by decide) (by decide)
  exact ⟨h.1, h.2.1, h.2.2.2⟩

end GoTime
